import Mathlib

/-!
# Verification of the Daifugo decision engine

Shallow embedding of the decision engine found in `src/lib/daifugo/utils.ts`,
`src/lib/daifugo/names.ts` and the NPC module (`DaifugoNpc`, `estimateMinimumTurns`,
`ensureNpcParticipants`), together with proofs of the specified properties.

Modelling conventions:
* JS `number` values used as scores are modelled as `ℚ` (all score arithmetic in the
  source is exact on small rationals; `1.3` becomes `13/10`).
* Card ranks are `Nat` (the source documents the domain `3..15` with `16` = joker).
* `Array.prototype.sort` is a stable sort (required by ECMAScript); a stable sort
  with respect to a total preorder has a unique result, so it is embedded as
  `List.insertionSort`, which is stable and structurally recursive.
* JS `Map` objects (which iterate in key-insertion order) are embedded as ordered
  association lists built by `insertBucket`.
* The module-global mutable counter `npcSequence` and the sequentially consumed
  random source are threaded explicitly as state.
* The memoization cache of `estimateMinimumTurns` is a pure optimization keyed by a
  canonical hand signature; the embedding is the memo-free denotation, expressed
  with a fuel argument (`hand.length` is always sufficient fuel, proved below).
-/

/-! ## Data model (src/lib/daifugo/types.ts) -/

inductive Suit : Type
  | spade | heart | diamond | club | joker
deriving DecidableEq

structure Card where
  id : String
  suit : Suit
  rank : Nat
deriving DecidableEq

inductive CombinationType : Type
  | single | pair | triple | sequence | bomb
deriving DecidableEq

structure Combination where
  type : CombinationType
  cards : List Card
  strength : ℚ
deriving DecidableEq

structure FieldState where
  currentCombination : Option Combination
  revolution : Bool
  passesInRow : Nat
deriving DecidableEq

inductive LastAction : Type
  | pass | play
deriving DecidableEq

structure OpponentSummary where
  id : String
  name : String
  remainingCards : Nat
  lastAction : Option LastAction := none
deriving DecidableEq

structure TableState where
  field : FieldState
  opponents : List OpponentSummary
  turnCount : Nat
deriving DecidableEq

inductive ControllerKind : Type
  | human | npc
deriving DecidableEq

structure Participant where
  id : String
  name : String
  isHuman : Bool
  controller : ControllerKind
deriving DecidableEq

inductive NpcAction : Type
  | play | pass
deriving DecidableEq

structure NpcMove where
  action : NpcAction
  combination : Option Combination := none
  score : ℚ
  breakdown : List (String × ℚ)
  explanation : String
deriving DecidableEq

/-! ## Rank weights (src/lib/daifugo/utils.ts lines 3-14, 43-48) -/

def RANKS : List Nat := [3, 4, 5, 6, 7, 8, 9, 10, 11, 12, 13, 14, 15, 16]

/-- The `NORMAL_WEIGHT` map: rank at index `i` of `RANKS` gets weight `i + 1`. -/
def NORMAL_WEIGHT : List (Nat × Nat) :=
  RANKS.enum.map (fun p => (p.2, p.1 + 1))

/-- The `REVOLUTION_WEIGHT` map: rank 16 keeps `RANKS.length + 1`; the rank at
index `i` gets `RANKS.length - i`. -/
def REVOLUTION_WEIGHT : List (Nat × Nat) :=
  RANKS.enum.map (fun p => (p.2, if p.2 = 16 then RANKS.length + 1 else RANKS.length - p.1))

/-- Weight lookup `getRankWeight`; the `?? rank` fallback of the source becomes `getD rank`. -/
def getRankWeight (rank : Nat) (revolution : Bool) : Nat :=
  if revolution then (REVOLUTION_WEIGHT.lookup rank).getD rank
  else (NORMAL_WEIGHT.lookup rank).getD rank

/-! ## Sorting and signatures (utils.ts lines 50-60) -/

/-- Comparator of `sortCards`: ascending rank weight. -/
def cardWeightLE (revolution : Bool) (a b : Card) : Prop :=
  getRankWeight a.rank revolution ≤ getRankWeight b.rank revolution

instance (revolution : Bool) : DecidableRel (cardWeightLE revolution) :=
  fun a b => Nat.decLe (getRankWeight a.rank revolution) (getRankWeight b.rank revolution)

/-- Sorting function `sortCards`: a stable sort by rank weight. -/
def sortCards (cards : List Card) (revolution : Bool) : List Card :=
  List.insertionSort (cardWeightLE revolution) cards

def suitStr : Suit → String
  | .spade => "spade"
  | .heart => "heart"
  | .diamond => "diamond"
  | .club => "club"
  | .joker => "joker"

/-- The `localeCompare` order of the five suit names:
`"club" < "diamond" < "heart" < "joker" < "spade"`. -/
def suitOrd : Suit → Nat
  | .club => 0
  | .diamond => 1
  | .heart => 2
  | .joker => 3
  | .spade => 4

/-- Comparator of `stringifyCards`: by rank, then by `localeCompare` on the suit name. -/
def stringifyLE (a b : Card) : Prop :=
  a.rank < b.rank ∨ (a.rank = b.rank ∧ suitOrd a.suit ≤ suitOrd b.suit)

instance : DecidableRel stringifyLE :=
  fun _ _ => inferInstanceAs (Decidable (_ ∨ _))

/-- Signature builder `stringifyCards`: the canonical `rank+suit` signature joined with "|". -/
def stringifyCards (cards : List Card) : String :=
  String.intercalate "|"
    ((List.insertionSort stringifyLE cards).map (fun c => toString c.rank ++ suitStr c.suit))

/-- Removal by card identity, `removeCards` (utils.ts lines 62-65). -/
def removeCards (hand cardsToRemove : List Card) : List Card :=
  let ids := cardsToRemove.map (fun c => c.id)
  hand.filter (fun c => !(ids.contains c.id))

/-! ## Insertion-ordered buckets (JS `Map` with list values) -/

/-- Append `c` to the bucket of key `k`, creating the bucket at the end when the key
is new — exactly the `map.get / push / map.set` pattern of the source. -/
def insertBucket {κ : Type} [DecidableEq κ] (m : List (κ × List Card)) (k : κ) (c : Card) :
    List (κ × List Card) :=
  match m with
  | [] => [(k, [c])]
  | (k', cs) :: rest =>
      if k' = k then (k', cs ++ [c]) :: rest else (k', cs) :: insertBucket rest k c

/-- Fold a hand into buckets, skipping cards for which `keep` is false. -/
def bucketsBy {κ : Type} [DecidableEq κ] (key : Card → κ) (keep : Card → Bool)
    (hand : List Card) : List (κ × List Card) :=
  hand.foldl (fun m c => if keep c then insertBucket m (key c) c else m) []

/-- Grouping by rank, `groupByRank` (utils.ts lines 67-78). -/
def groupByRank (cards : List Card) : List (Nat × List Card) :=
  bucketsBy (fun c => c.rank) (fun _ => true) cards

/-! ## Combinations (utils.ts lines 80-119) -/

/-- Construction of a combination, `buildCombination`: sort the cards and attach the mean rank weight. -/
def buildCombination (type : CombinationType) (cards : List Card) (revolution : Bool) :
    Combination :=
  let sorted := sortCards cards revolution
  { type := type
    cards := sorted
    strength :=
      (sorted.foldl (fun acc c => acc + (getRankWeight c.rank revolution : ℚ)) 0) /
        (sorted.length : ℚ) }

/-- Beat relation `combinationBeats` (utils.ts lines 90-103).  The source reads the last element of
each card list; with equal nonzero lengths both lists are nonempty, which is the only
situation in which the final comparison is reached. -/
def combinationBeats (candidate current : Combination) (revolution : Bool) : Bool :=
  if candidate.type = CombinationType.bomb ∧ current.type ≠ CombinationType.bomb then true
  else if candidate.type ≠ current.type then false
  else if candidate.cards.length ≠ current.cards.length then false
  else
    match candidate.cards.getLast?, current.cards.getLast? with
    | some a, some b =>
        decide (getRankWeight b.rank revolution < getRankWeight a.rank revolution)
    | _, _ => false

def generateSingleCombinations (hand : List Card) (revolution : Bool) : List Combination :=
  hand.map (fun card => buildCombination .single [card] revolution)

def generateGroupCombinations (hand : List Card) (size : Nat) (type : CombinationType)
    (revolution : Bool) : List Combination :=
  (groupByRank hand).filterMap (fun b =>
    if size ≤ b.2.length then some (buildCombination type (b.2.take size) revolution)
    else none)

/-! ## Sequences (utils.ts lines 121-153) -/

/-- The `continue` guard of the per-suit partition: jokers and ranks `≥ 15` are skipped. -/
def seqEligible (c : Card) : Bool :=
  !(decide (c.suit = Suit.joker) || decide (15 ≤ c.rank))

def perSuitBuckets (hand : List Card) : List (Suit × List Card) :=
  bucketsBy (fun c => c.suit) seqEligible hand

/-- The inner loop (`j`) of the sequence scan: starting from an accumulated run `seq`
whose last rank is `lastRank`, walk the remaining sorted cards, skipping duplicated
ranks, extending on `rank = lastRank + 1` (emitting every extension of length ≥ 3),
and stopping at the first gap. -/
def extendRun (revolution : Bool) : List Card → Nat → List Card → List Combination
  | [], _, _ => []
  | c :: rest, lastRank, seq =>
      if c.rank = lastRank then extendRun revolution rest lastRank seq
      else if c.rank = lastRank + 1 then
        (if 3 ≤ (seq ++ [c]).length then
            [buildCombination .sequence (seq ++ [c]) revolution]
          else []) ++ extendRun revolution rest c.rank (seq ++ [c])
      else []

/-- The outer loop (`i`): one scan per start position. -/
def scanStarts (revolution : Bool) : List Card → List Combination
  | [] => []
  | c :: rest => extendRun revolution rest c.rank [c] ++ scanStarts revolution rest

def generateSequenceCombinations (hand : List Card) (revolution : Bool) : List Combination :=
  (perSuitBuckets hand).flatMap (fun b => scanStarts revolution (sortCards b.2 revolution))

/-! ## All combinations and legality (utils.ts lines 155-188) -/

def typeStr : CombinationType → String
  | .single => "single"
  | .pair => "pair"
  | .triple => "triple"
  | .sequence => "sequence"
  | .bomb => "bomb"

/-- The dedup key `type:signature` of `generateAllPotentialCombinations`. -/
def comboKey (c : Combination) : String :=
  typeStr c.type ++ ":" ++ stringifyCards c.cards

/-- First-occurrence dedup by key — the `Map`-based dedup of the source. -/
def dedupByKey : List Combination → List String → List Combination
  | [], _ => []
  | c :: rest, seen =>
      if seen.contains (comboKey c) then dedupByKey rest seen
      else c :: dedupByKey rest (comboKey c :: seen)

def generateAllPotentialCombinations (hand : List Card) (revolution : Bool) :
    List Combination :=
  let singles := generateSingleCombinations hand revolution
  let pairs := generateGroupCombinations hand 2 .pair revolution
  let triples := generateGroupCombinations hand 3 .triple revolution
  let bombs := generateGroupCombinations hand 4 .bomb revolution
  let sequences := generateSequenceCombinations hand revolution
  dedupByKey (singles ++ pairs ++ triples ++ sequences ++ bombs) []

def generateLegalCombinations (hand : List Card) (field : FieldState) : List Combination :=
  let revolution := field.revolution
  let allCombos := generateAllPotentialCombinations hand revolution
  match field.currentCombination with
  | none => allCombos
  | some current =>
      allCombos.filter (fun combo =>
        decide (combo.type = CombinationType.bomb ∧ current.type ≠ CombinationType.bomb)
          || combinationBeats combo current revolution)

/-! ## Descriptions (utils.ts lines 190-200) -/

def suitLetter : Suit → String
  | .spade => "S"
  | .heart => "H"
  | .diamond => "D"
  | .club => "C"
  | .joker => "J"

def describeCombination (combination : Combination) : String :=
  let name :=
    match combination.type with
    | .single => "シングル"
    | .pair => "ペア"
    | .triple => "トリプル"
    | .sequence => "階段"
    | .bomb => "ボム"
  let cards :=
    String.intercalate ", "
      (combination.cards.map (fun c => toString c.rank ++ suitLetter c.suit))
  name ++ ": " ++ cards

/-! ## Turn-Horizon Estimator (npc module, `estimateMinimumTurns`)

The source recursion is well-founded because every generated combination removes at
least one card (proved below as `removeCards_generateAll_length_lt`).  The embedding
makes this explicit through a fuel argument; `hand.length` fuel always suffices and
the value is fuel-independent from that point on (`estimateMinimumTurnsFuel_eq_of_le`).
The memoization cache of the source is a pure optimization and is not modelled. -/

def estimateMinimumTurnsFuel : Nat → List Card → Bool → Nat
  | _, [], _ => 0
  | 0, hand, _ => hand.length
  | fuel + 1, hand, revolution =>
      (generateAllPotentialCombinations hand revolution).foldl
        (fun best combo =>
          min best (1 + estimateMinimumTurnsFuel fuel (removeCards hand combo.cards) revolution))
        hand.length

def estimateMinimumTurns (hand : List Card) (revolution : Bool) : Nat :=
  estimateMinimumTurnsFuel hand.length hand revolution

/-! ## Move evaluation (npc module) -/

/-- JS `Math.max` on scores (ℚ): kernel-computable, unlike the lattice `max`. -/
def ratMax (a b : ℚ) : ℚ := if a < b then b else a

structure EvaluatedMove where
  combination : Combination
  score : ℚ
  breakdown : List (String × ℚ)
  explanation : String
deriving DecidableEq

def computeControlScore (combo : Combination) (hand : List Card) (field : FieldState) : ℚ :=
  let revolution := field.revolution
  let highestInHand : ℚ :=
    hand.foldl (fun m c => ratMax m (getRankWeight c.rank revolution : ℚ)) 0
  let highestInCombo : ℚ :=
    combo.cards.foldl (fun m c => ratMax m (getRankWeight c.rank revolution : ℚ)) 0
  let relStrength := highestInCombo / ratMax 1 highestInHand
  let control := relStrength * 12
  let control := if field.currentCombination = none then control + 4 else control
  let control := if combo.type = CombinationType.bomb then control + 8 else control
  if combo.type = CombinationType.sequence ∧ 4 ≤ combo.cards.length then control + 5
  else control

def computePressureScore (combo : Combination) (state : TableState) : ℚ :=
  let criticalOpponents := state.opponents.filter (fun o => decide (o.remainingCards ≤ 3))
  if criticalOpponents.length = 0 then 0
  else
    let score :=
      criticalOpponents.foldl
        (fun acc o => acc + (12 - (o.remainingCards : ℚ) * 2)) 0
    let score := if combo.type ≠ CombinationType.single then score + 3 else score
    if combo.type = CombinationType.bomb then score + 6 else score

def combinationPriority : CombinationType → Nat
  | .single => 1
  | .pair => 2
  | .triple => 3
  | .sequence => 3
  | .bomb => 5

def computeShapeScore (combo : Combination) (remainingTurns : Nat) : ℚ :=
  let coverage : ℚ := (combinationPriority combo.type : ℚ) * 6 + (combo.cards.length : ℚ) * 2
  let smoothness : ℚ := ratMax 0 (12 - (remainingTurns : ℚ) * 2)
  coverage + smoothness - (remainingTurns : ℚ) * (13 / 10)

def computeEndgameBonus (remaining : List Card) (opponents : List OpponentSummary) : ℚ :=
  if remaining.length = 0 then 120
  else if opponents.length = 0 then (if remaining.length ≤ 2 then 20 else 0)
  else
    match opponents.map (fun o => o.remainingCards) with
    | [] => 0
    | n :: ns =>
        let smallestOpponent := ns.foldl min n
        if remaining.length ≤ 2 ∧ remaining.length < smallestOpponent then 25
        else if remaining.length ≤ 4 then 12
        else 0

def evaluateCombination (hand : List Card) (combo : Combination) (state : TableState) :
    EvaluatedMove :=
  let remaining := removeCards hand combo.cards
  let revolution := state.field.revolution
  let remainingTurns := estimateMinimumTurns remaining revolution
  let shapeScore := computeShapeScore combo remainingTurns
  let controlScore := computeControlScore combo hand state.field
  let pressureScore := computePressureScore combo state
  let endgameBonus := computeEndgameBonus remaining state.opponents
  let total := shapeScore + controlScore + pressureScore + endgameBonus
  { combination := combo
    score := total
    breakdown :=
      [("shape", shapeScore), ("control", controlScore), ("pressure", pressureScore),
        ("endgame", endgameBonus)]
    explanation :=
      describeCombination combo ++ " を選択。残り手数予測: " ++ toString remainingTurns ++ " 手" }

def evaluatePass (state : TableState) : EvaluatedMove :=
  let threat :=
    state.opponents.foldl
      (fun acc o =>
        if o.remainingCards ≤ 2 then acc + 18
        else if o.remainingCards ≤ 4 then acc + 10
        else if o.remainingCards ≤ 7 then acc + 4
        else acc)
      (0 : ℚ)
  let patience : ℚ := ratMax 0 (12 - (state.field.passesInRow : ℚ) * 3)
  let score := patience - threat
  { combination := { type := .single, cards := [], strength := 0 }
    score := score
    breakdown := [("patience", patience), ("threat", -threat)]
    explanation := "今回はパスして様子を見る" }

/-! ## NPC Decision Policy (`DaifugoNpc.chooseMove`) -/

/-- Comparator of the `evaluations.sort((a, b) => b.score - a.score)` call:
descending score, stable. -/
def scoreDescLE (a b : EvaluatedMove) : Prop := b.score ≤ a.score

instance : DecidableRel scoreDescLE :=
  fun a b => inferInstanceAs (Decidable (b.score ≤ a.score))

def chooseMove (hand : List Card) (state : TableState) : NpcMove :=
  let legal := generateLegalCombinations hand state.field
  if legal.isEmpty then
    let pass := evaluatePass state
    { action := .pass
      score := pass.score
      breakdown := pass.breakdown
      explanation := pass.explanation }
  else
    let evaluations :=
      List.insertionSort scoreDescLE (legal.map (fun combo => evaluateCombination hand combo state))
    let best := evaluations.headD (evaluatePass state)
    let passScore := (evaluatePass state).score
    if best.score ≤ passScore + 2 then
      { action := .pass
        score := passScore
        breakdown := [("patience", passScore)]
        explanation := "強い手がないためパス" }
    else
      { action := .play
        combination := some best.combination
        score := best.score
        breakdown := best.breakdown
        explanation := best.explanation }

/-! ## Roster helper (names.ts and `ensureNpcParticipants`)

The random source is a sequence `f : Nat → ℚ` of numbers consumed one draw at a
time; a call threads the next unread position.  The module-global `npcSequence`
counter is threaded explicitly. -/

def familyNames : List String :=
  ["佐藤", "鈴木", "高橋", "田中", "伊藤", "渡辺", "山本", "中村", "小林", "加藤",
    "吉田", "山田", "佐々木", "山口", "松本", "井上", "木村", "林", "清水", "山崎"]

def givenNames : List String :=
  ["太郎", "葵", "大輔", "優奈", "悠人", "花", "蓮", "陽菜", "蒼", "さくら",
    "航", "結衣", "颯太", "愛", "翼", "美咲", "陽斗", "凛", "健太", "琴音"]

/-- Random pick `names[Math.floor(q * names.length)]`; an out-of-range JS index yields
`undefined`, which stringifies to `"undefined"` in the template literal. -/
def jsPick (names : List String) (q : ℚ) : String :=
  let i : Int := Int.floor (q * (names.length : ℚ))
  if 0 ≤ i then (names.get? i.toNat).getD "undefined" else "undefined"

/-- The numbered-fallback loop: increment the suffix until the name is unused.
`used.length + 1` attempts always suffice (the candidates are pairwise distinct). -/
def fallbackName (used : List String) : Nat → Nat → String
  | 0, suffix => "NPC" ++ toString suffix
  | fuel + 1, suffix =>
      let candidate := "NPC" ++ toString suffix
      if used.contains candidate then fallbackName used fuel (suffix + 1) else candidate

/-- The bounded retry loop of `generateJapaneseNpcName`: at most
`familyNames.length * givenNames.length` paired random draws, then the numbered fallback.
Returns the chosen name, the updated used-name set and the next random position. -/
def generateJapaneseNpcNameGo (f : Nat → ℚ) :
    Nat → Nat → List String → String × List String × Nat
  | 0, pos, used =>
      let suffix := used.length + 1
      let name := fallbackName used (used.length + 1) suffix
      (name, name :: used, pos)
  | i + 1, pos, used =>
      let family := jsPick familyNames (f pos)
      let given := jsPick givenNames (f (pos + 1))
      let name := family ++ " " ++ given
      if used.contains name then generateJapaneseNpcNameGo f i (pos + 2) used
      else (name, name :: used, pos + 2)

def generateJapaneseNpcName (used : List String) (f : Nat → ℚ) (pos : Nat) :
    String × List String × Nat :=
  generateJapaneseNpcNameGo f (familyNames.length * givenNames.length) pos used

/-- JS `Set` construction from a list of names (first occurrence kept). -/
def mkUsedSet (names : List String) : List String :=
  names.foldl (fun used n => if used.contains n then used else n :: used) []

def digit36 (n : Nat) : Char :=
  if n < 10 then Char.ofNat (48 + n) else Char.ofNat (87 + n)

def toBase36Go : Nat → Nat → List Char → List Char
  | 0, n, acc => digit36 n :: acc
  | fuel + 1, n, acc =>
      if n < 36 then digit36 n :: acc
      else toBase36Go fuel (n / 36) (digit36 (n % 36) :: acc)

/-- Rendering `n.toString(36)` of JS numbers restricted to naturals. -/
def toBase36 (n : Nat) : String := String.mk (toBase36Go n n [])

/-- Id allocation `generateNpcId`: increments the module counter and renders it in base 36. -/
def generateNpcId (npcSequence : Nat) : String × Nat :=
  ("npc-" ++ toBase36 (npcSequence + 1), npcSequence + 1)

/-- The `while (result.length < desiredCount)` loop; the fuel is the number of
missing seats, each iteration filling exactly one. -/
def ensureLoop (f : Nat → ℚ) :
    Nat → List Participant → List String → Nat → Nat → List Participant × Nat × Nat
  | 0, result, _, npcSequence, pos => (result, npcSequence, pos)
  | k + 1, result, used, npcSequence, pos =>
      let r := generateJapaneseNpcName used f pos
      let idc := generateNpcId npcSequence
      ensureLoop f k
        (result ++ [{ id := idc.1, name := r.1, isHuman := false, controller := .npc }])
        r.2.1 idc.2 r.2.2

def ensureNpcParticipants (participants : List Participant) (desiredCount : Nat)
    (f : Nat → ℚ) (npcSequence : Nat) (pos : Nat) : List Participant × Nat × Nat :=
  ensureLoop f (desiredCount - participants.length) participants
    (mkUsedSet (participants.map (fun p => p.name))) npcSequence pos

/-! ## Statement- and proof-side helper definitions -/

/-- First-match lookup in an insertion-ordered bucket list (JS `Map.get`). -/
def bucketGet {κ : Type} [DecidableEq κ] : List (κ × List Card) → κ → Option (List Card)
  | [], _ => none
  | (k, cs) :: rest, s => if k = s then some cs else bucketGet rest s

/-- The spec's "consecutive rank weights" along a list of cards: each successive
card's weight is exactly one more than its predecessor's. -/
def consecutiveWeights (revolution : Bool) : List Card → Bool
  | [] => true
  | [_] => true
  | a :: b :: rest =>
      decide (getRankWeight b.rank revolution = getRankWeight a.rank revolution + 1) &&
        consecutiveWeights revolution (b :: rest)

/-- Ascending chain of raw ranks continuing from `lastRank` — the condition the
inner scan loop of `generateSequenceCombinations` actually tests. -/
def chainFrom : Nat → List Card → Prop
  | _, [] => True
  | lastRank, c :: rest => c.rank = lastRank + 1 ∧ chainFrom c.rank rest

/-- Projection of a participant to its random-source-determined data (everything
except the globally allocated id). -/
def rosterView (p : Participant) : String × Bool × ControllerKind :=
  (p.name, p.isHuman, p.controller)

/-! ### Concrete inputs used by witnesses and counterexamples -/

def cardH5 : Card := ⟨"h5", Suit.heart, 5⟩

def cardH6 : Card := ⟨"h6", Suit.heart, 6⟩

def cardH7 : Card := ⟨"h7", Suit.heart, 7⟩

def heartsRunHand : List Card := [cardH5, cardH6, cardH7]

def cardS3 : Card := ⟨"s3", Suit.spade, 3⟩

def cardC3 : Card := ⟨"c3", Suit.club, 3⟩

def cardD4 : Card := ⟨"d4", Suit.diamond, 4⟩

def cardS11 : Card := ⟨"s11", Suit.spade, 11⟩

def openField : FieldState := { currentCombination := none, revolution := false, passesInRow := 0 }

def twoOpponents : List OpponentSummary :=
  [{ id := "r1", name := "A", remainingCards := 5 }, { id := "r2", name := "B", remainingCards := 6 }]

def openState : TableState := { field := openField, opponents := twoOpponents, turnCount := 1 }

/-- The repo test's blocked position: hand 3♣/4♦ against a single J♠. -/
def jackField : FieldState :=
  { currentCombination := some (buildCombination .single [cardS11] false)
    revolution := false
    passesInRow := 1 }

def jackState : TableState := { field := jackField, opponents := twoOpponents, turnCount := 1 }

def lowHand : List Card := [cardC3, cardD4]

def bombCard (i : Nat) (s : Suit) (r : Nat) : Card := ⟨"b" ++ toString i, s, r⟩

/-- A four-of-a-kind of rank 3 sitting on the field. -/
def fieldBomb : Combination :=
  buildCombination .bomb
    [bombCard 1 .spade 3, bombCard 2 .heart 3, bombCard 3 .diamond 3, bombCard 4 .club 3] false

def bombField : FieldState :=
  { currentCombination := some fieldBomb, revolution := false, passesInRow := 0 }

/-- A hand holding a four-of-a-kind of rank 5 and a spare card. -/
def bombHand : List Card :=
  [bombCard 5 .spade 5, bombCard 6 .heart 5, bombCard 7 .diamond 5, bombCard 8 .club 5,
    bombCard 9 .spade 9]

def singleHand : List Card := [cardS3]

def emptyOppState : TableState := { field := openField, opponents := [], turnCount := 1 }

/-! ## Lemmas: insertion-ordered buckets -/

theorem bucketGet_insertBucket {κ : Type} [DecidableEq κ] (m : List (κ × List Card))
    (k : κ) (c : Card) (s : κ) :
    bucketGet (insertBucket m k c) s =
      if k = s then some ((bucketGet m s).getD [] ++ [c]) else bucketGet m s := by
  induction m with
  | nil => by_cases h : k = s <;> simp [insertBucket, bucketGet, h]
  | cons e rest ih =>
      obtain ⟨k', cs⟩ := e
      by_cases h1 : k' = k
      · subst h1
        by_cases h2 : k' = s <;> simp [insertBucket, bucketGet, h2]
      · by_cases h2 : k' = s
        · subst h2
          have hks : ¬ k = k' := fun h => h1 h.symm
          simp [insertBucket, bucketGet, h1, hks]
        · simp [insertBucket, bucketGet, h1, h2, ih]

theorem keys_insertBucket {κ : Type} [DecidableEq κ] (m : List (κ × List Card))
    (k : κ) (c : Card) :
    (insertBucket m k c).map Prod.fst =
      if k ∈ m.map Prod.fst then m.map Prod.fst else m.map Prod.fst ++ [k] := by
  induction m with
  | nil => simp [insertBucket]
  | cons e rest ih =>
      obtain ⟨k', cs⟩ := e
      by_cases h1 : k' = k
      · subst h1; simp [insertBucket]
      · have hne : ¬ k = k' := fun h => h1 h.symm
        by_cases h2 : k ∈ rest.map Prod.fst <;>
          simp [insertBucket, h1, h2, ih, hne]

theorem nodupKeys_insertBucket {κ : Type} [DecidableEq κ] {m : List (κ × List Card)}
    (hnd : (m.map Prod.fst).Nodup) (k : κ) (c : Card) :
    ((insertBucket m k c).map Prod.fst).Nodup := by
  rw [keys_insertBucket]
  by_cases h : k ∈ m.map Prod.fst
  · simpa [h] using hnd
  · have happ : (m.map Prod.fst ++ [k]).Nodup := by
      rw [List.nodup_append]
      exact ⟨hnd, List.nodup_singleton k, by simpa [List.disjoint_singleton] using h⟩
    simpa [h] using happ

theorem mem_iff_bucketGet {κ : Type} [DecidableEq κ] {m : List (κ × List Card)}
    (hnd : (m.map Prod.fst).Nodup) (s : κ) (B : List Card) :
    (s, B) ∈ m ↔ bucketGet m s = some B := by
  induction m with
  | nil => simp [bucketGet]
  | cons e rest ih =>
      obtain ⟨k, cs⟩ := e
      simp only [List.map_cons, List.nodup_cons] at hnd
      by_cases h : k = s
      · subst h
        have hnot : (k, B) ∉ rest := fun hmem => hnd.1 (List.mem_map.mpr ⟨(k, B), hmem, rfl⟩)
        simp only [bucketGet, if_pos rfl, List.mem_cons]
        constructor
        · rintro (h | h)
          · rw [Prod.ext_iff] at h; exact congrArg some h.2.symm
          · exact absurd h hnot
        · intro h
          left
          simpa using congrArg (fun o => Option.getD o []) h.symm
      · have hne : (s, B) ≠ (k, cs) := by
          intro hEq; rw [Prod.ext_iff] at hEq; exact h hEq.1.symm
        simp [bucketGet, h, ih hnd.2, hne, fun hc : k = s => h hc]

theorem bucketsBy_fold {κ : Type} [DecidableEq κ] (key : Card → κ) (keep : Card → Bool) :
    ∀ (hand pre : List Card) (m : List (κ × List Card)),
      (m.map Prod.fst).Nodup →
      (∀ s, bucketGet m s =
        (if pre.filter (fun c => keep c && decide (key c = s)) = [] then none
         else some (pre.filter (fun c => keep c && decide (key c = s))))) →
      ((hand.foldl (fun acc c => if keep c then insertBucket acc (key c) c else acc) m).map
          Prod.fst).Nodup ∧
        ∀ s, bucketGet
            (hand.foldl (fun acc c => if keep c then insertBucket acc (key c) c else acc) m) s =
          (if (pre ++ hand).filter (fun c => keep c && decide (key c = s)) = [] then none
           else some ((pre ++ hand).filter (fun c => keep c && decide (key c = s)))) := by
  intro hand
  induction hand with
  | nil =>
      intro pre m hnd hget
      refine ⟨by simpa using hnd, fun s => ?_⟩
      simp only [List.foldl_nil, List.append_nil]
      exact hget s
  | cons c t ih =>
      intro pre m hnd hget
      have hassoc : pre ++ c :: t = (pre ++ [c]) ++ t := by simp
      rw [hassoc, List.foldl_cons]
      by_cases hk : keep c = true
      · rw [if_pos hk]
        refine ih (pre ++ [c]) (insertBucket m (key c) c) (nodupKeys_insertBucket hnd _ _) ?_
        intro s
        rw [bucketGet_insertBucket, hget s]
        by_cases hs : key c = s
        · have hpc : (keep c && decide (key c = s)) = true := by simp [hk, hs]
          rw [if_pos hs]
          by_cases hemp : pre.filter (fun x => keep x && decide (key x = s)) = [] <;>
            simp [List.filter_append, List.filter_cons, hpc, hemp]
        · have hpc : (keep c && decide (key c = s)) = false := by simp [hs]
          rw [if_neg hs]
          simp [List.filter_append, List.filter_cons, hpc]
      · rw [if_neg hk]
        have hkf : keep c = false := by revert hk; cases keep c <;> simp
        refine ih (pre ++ [c]) m hnd ?_
        intro s
        rw [hget s]
        have hpc : (keep c && decide (key c = s)) = false := by simp [hkf]
        simp [List.filter_append, List.filter_cons, hpc]

theorem bucketsBy_spec {κ : Type} [DecidableEq κ] (key : Card → κ) (keep : Card → Bool)
    (hand : List Card) :
    ((bucketsBy key keep hand).map Prod.fst).Nodup ∧
    ∀ s, bucketGet (bucketsBy key keep hand) s =
      (if hand.filter (fun c => keep c && decide (key c = s)) = [] then none
       else some (hand.filter (fun c => keep c && decide (key c = s)))) := by
  have h := bucketsBy_fold key keep hand [] [] (by simp) (fun s => by simp [bucketGet])
  simpa [bucketsBy] using h

theorem mem_bucketsBy_iff {κ : Type} [DecidableEq κ] (key : Card → κ) (keep : Card → Bool)
    (hand : List Card) (s : κ) (B : List Card) :
    (s, B) ∈ bucketsBy key keep hand ↔
      (B = hand.filter (fun c => keep c && decide (key c = s)) ∧ B ≠ []) := by
  obtain ⟨hnd, hget⟩ := bucketsBy_spec key keep hand
  rw [mem_iff_bucketGet hnd, hget s]
  by_cases hemp : hand.filter (fun c => keep c && decide (key c = s)) = []
  · simp only [if_pos hemp]
    constructor
    · intro h; exact absurd h (by simp)
    · rintro ⟨rfl, hne⟩; exact absurd hemp hne
  · simp only [if_neg hemp]
    constructor
    · intro h
      have : B = hand.filter (fun c => keep c && decide (key c = s)) := by
        injection h with h; exact h.symm
      exact ⟨this, this ▸ hemp⟩
    · rintro ⟨rfl, _⟩; rfl

/-! ## Lemmas: sorting -/

theorem sortCards_perm (cards : List Card) (revolution : Bool) :
    List.Perm (sortCards cards revolution) cards :=
  List.perm_insertionSort _ cards

theorem mem_sortCards {cards : List Card} {revolution : Bool} {c : Card} :
    c ∈ sortCards cards revolution ↔ c ∈ cards :=
  (sortCards_perm cards revolution).mem_iff

theorem length_sortCards (cards : List Card) (revolution : Bool) :
    (sortCards cards revolution).length = cards.length :=
  (sortCards_perm cards revolution).length_eq

theorem sortCards_eq_nil_iff {cards : List Card} {revolution : Bool} :
    sortCards cards revolution = [] ↔ cards = [] := by
  constructor
  · intro h
    have := length_sortCards cards revolution
    rw [h] at this
    exact List.length_eq_zero.mp this.symm
  · rintro rfl; rfl

theorem sortCards_sorted (cards : List Card) (revolution : Bool) :
    (sortCards cards revolution).Pairwise (cardWeightLE revolution) := by
  haveI : IsTotal Card (cardWeightLE revolution) := ⟨fun a b => Nat.le_total _ _⟩
  haveI : IsTrans Card (cardWeightLE revolution) := ⟨fun _ _ _ => Nat.le_trans⟩
  exact List.sorted_insertionSort _ cards

theorem sortCards_of_sorted {cards : List Card} {revolution : Bool}
    (h : cards.Pairwise (cardWeightLE revolution)) : sortCards cards revolution = cards :=
  List.Sorted.insertionSort_eq h

/-! ## Lemmas: combination generators produce nonempty sub-hands -/

theorem buildCombination_type (t : CombinationType) (cs : List Card) (revolution : Bool) :
    (buildCombination t cs revolution).type = t := rfl

theorem buildCombination_cards (t : CombinationType) (cs : List Card) (revolution : Bool) :
    (buildCombination t cs revolution).cards = sortCards cs revolution := rfl

theorem dedupByKey_subset :
    ∀ (l : List Combination) (seen : List String) {c : Combination},
      c ∈ dedupByKey l seen → c ∈ l := by
  intro l
  induction l with
  | nil => intro seen c hc; simp [dedupByKey] at hc
  | cons a t ih =>
      intro seen c hc
      by_cases h : seen.contains (comboKey a)
      · simp only [dedupByKey, if_pos h] at hc
        exact List.mem_cons_of_mem a (ih _ hc)
      · simp only [dedupByKey, if_neg h, List.mem_cons] at hc
        rcases hc with rfl | hc
        · exact List.mem_cons_self c t
        · exact List.mem_cons_of_mem a (ih _ hc)

theorem dedupByKey_ne_nil (a : Combination) (t : List Combination) (seen : List String)
    (hseen : seen.contains (comboKey a) = false) :
    dedupByKey (a :: t) seen ≠ [] := by
  have hmem : comboKey a ∉ seen := by simpa using hseen
  simp [dedupByKey, hmem]

theorem mem_generateAll_elim {hand : List Card} {revolution : Bool} {c : Combination}
    (hc : c ∈ generateAllPotentialCombinations hand revolution) :
    c ∈ generateSingleCombinations hand revolution ∨
    c ∈ generateGroupCombinations hand 2 .pair revolution ∨
    c ∈ generateGroupCombinations hand 3 .triple revolution ∨
    c ∈ generateSequenceCombinations hand revolution ∨
    c ∈ generateGroupCombinations hand 4 .bomb revolution := by
  have h := dedupByKey_subset _ _ hc
  simpa [List.mem_append, or_assoc] using h

theorem mem_generateGroup_elim {hand : List Card} {size : Nat} {t : CombinationType}
    {revolution : Bool} {c : Combination}
    (hc : c ∈ generateGroupCombinations hand size t revolution) :
    ∃ r B, (r, B) ∈ groupByRank hand ∧ size ≤ B.length ∧
      c = buildCombination t (B.take size) revolution := by
  simp only [generateGroupCombinations, List.mem_filterMap] at hc
  obtain ⟨⟨r, B⟩, hm, h⟩ := hc
  by_cases hle : size ≤ B.length
  · refine ⟨r, B, hm, hle, ?_⟩
    simp only [if_pos hle, Option.some_inj] at h
    exact h.symm
  · simp [if_neg hle] at h

theorem groupByRank_bucket {hand : List Card} {r : Nat} {B : List Card}
    (h : (r, B) ∈ groupByRank hand) :
    B = hand.filter (fun c => decide (c.rank = r)) ∧ B ≠ [] := by
  have := (mem_bucketsBy_iff (fun c => c.rank) (fun _ => true) hand r B).mp h
  simpa using this

theorem extendRun_sound {revolution : Bool} :
    ∀ (rest : List Card) (lastRank : Nat) (seq : List Card) {c' : Combination},
      c' ∈ extendRun revolution rest lastRank seq →
      ∃ pre, c' = buildCombination .sequence pre revolution ∧ pre ≠ [] ∧
        ∀ x ∈ pre, x ∈ seq ∨ x ∈ rest := by
  intro rest
  induction rest with
  | nil => intro lastRank seq c' hc; simp [extendRun] at hc
  | cons c t ih =>
      intro lastRank seq c' hc
      by_cases h1 : c.rank = lastRank
      · rw [extendRun, if_pos h1] at hc
        obtain ⟨pre, heq, hne, hsub⟩ := ih lastRank seq hc
        exact ⟨pre, heq, hne, fun x hx => by
          rcases hsub x hx with h | h
          · exact Or.inl h
          · exact Or.inr (List.mem_cons_of_mem c h)⟩
      · by_cases h2 : c.rank = lastRank + 1
        · rw [extendRun, if_neg h1, if_pos h2] at hc
          rw [List.mem_append] at hc
          rcases hc with hc | hc
          · obtain ⟨-, hceq⟩ :
                2 ≤ seq.length ∧
                  c' = buildCombination CombinationType.sequence (seq ++ [c]) revolution := by
              simpa using hc
            refine ⟨seq ++ [c], hceq, by simp, ?_⟩
            intro x hx
            rcases List.mem_append.mp hx with h | h
            · exact Or.inl h
            · simp only [List.mem_singleton] at h
              exact Or.inr (h ▸ List.mem_cons_self c t)
          · obtain ⟨pre, heq, hne, hsub⟩ := ih c.rank (seq ++ [c]) hc
            refine ⟨pre, heq, hne, fun x hx => ?_⟩
            rcases hsub x hx with h | h
            · rcases List.mem_append.mp h with h | h
              · exact Or.inl h
              · simp only [List.mem_singleton] at h
                exact Or.inr (h ▸ List.mem_cons_self c t)
            · exact Or.inr (List.mem_cons_of_mem c h)
        · rw [extendRun, if_neg h1, if_neg h2] at hc
          simp at hc

theorem scanStarts_sound {revolution : Bool} :
    ∀ (L : List Card) {c' : Combination},
      c' ∈ scanStarts revolution L →
      ∃ pre, c' = buildCombination .sequence pre revolution ∧ pre ≠ [] ∧
        ∀ x ∈ pre, x ∈ L := by
  intro L
  induction L with
  | nil => intro c' hc; simp [scanStarts] at hc
  | cons c t ih =>
      intro c' hc
      rw [scanStarts, List.mem_append] at hc
      rcases hc with hc | hc
      · obtain ⟨pre, heq, hne, hsub⟩ := extendRun_sound t c.rank [c] hc
        refine ⟨pre, heq, hne, fun x hx => ?_⟩
        rcases hsub x hx with h | h
        · simp only [List.mem_singleton] at h
          exact h ▸ List.mem_cons_self c t
        · exact List.mem_cons_of_mem c h
      · obtain ⟨pre, heq, hne, hsub⟩ := ih hc
        exact ⟨pre, heq, hne, fun x hx => List.mem_cons_of_mem c (hsub x hx)⟩

theorem mem_generateSequence_elim {hand : List Card} {revolution : Bool} {c : Combination}
    (hc : c ∈ generateSequenceCombinations hand revolution) :
    ∃ pre, c = buildCombination .sequence pre revolution ∧ pre ≠ [] ∧
      ∀ x ∈ pre, x ∈ hand := by
  simp only [generateSequenceCombinations, List.mem_flatMap] at hc
  obtain ⟨⟨s, B⟩, hb, hc⟩ := hc
  obtain ⟨hBeq, _⟩ := (mem_bucketsBy_iff (fun c => c.suit) seqEligible hand s B).mp hb
  obtain ⟨pre, heq, hne, hsub⟩ := scanStarts_sound _ hc
  refine ⟨pre, heq, hne, fun x hx => ?_⟩
  have hxB : x ∈ B := mem_sortCards.mp (hsub x hx)
  rw [hBeq] at hxB
  exact List.mem_of_mem_filter hxB

/-- Every generated combination draws its (nonempty) card list from the hand. -/
theorem generateAll_cards_sound {hand : List Card} {revolution : Bool} {c : Combination}
    (hc : c ∈ generateAllPotentialCombinations hand revolution) :
    c.cards ≠ [] ∧ ∀ x ∈ c.cards, x ∈ hand := by
  have hgroup :
      ∀ {size : Nat} {t : CombinationType}, 1 ≤ size →
        c ∈ generateGroupCombinations hand size t revolution →
        c.cards ≠ [] ∧ ∀ x ∈ c.cards, x ∈ hand := by
    intro size t hsize hmem
    obtain ⟨r, B, hb, hle, rfl⟩ := mem_generateGroup_elim hmem
    obtain ⟨hBeq, -⟩ := groupByRank_bucket hb
    constructor
    · rw [buildCombination_cards, Ne, sortCards_eq_nil_iff]
      intro htake
      have hlen : (B.take size).length = size := by
        rw [List.length_take]
        omega
      rw [htake] at hlen
      simp at hlen
      omega
    · intro x hx
      rw [buildCombination_cards] at hx
      have hxB : x ∈ B := List.mem_of_mem_take (mem_sortCards.mp hx)
      rw [hBeq] at hxB
      exact List.mem_of_mem_filter hxB
  rcases mem_generateAll_elim hc with h | h | h | h | h
  · simp only [generateSingleCombinations, List.mem_map] at h
    obtain ⟨x, hx, rfl⟩ := h
    refine ⟨by rw [buildCombination_cards, Ne, sortCards_eq_nil_iff]; simp, ?_⟩
    intro y hy
    rw [buildCombination_cards] at hy
    have := mem_sortCards.mp hy
    simp only [List.mem_singleton] at this
    exact this ▸ hx
  · exact hgroup (by omega) h
  · exact hgroup (by omega) h
  · obtain ⟨pre, rfl, hne, hsub⟩ := mem_generateSequence_elim h
    refine ⟨by rwa [buildCombination_cards, Ne, sortCards_eq_nil_iff], ?_⟩
    intro x hx
    rw [buildCombination_cards] at hx
    exact hsub x (mem_sortCards.mp hx)
  · exact hgroup (by omega) h

/-! ## Lemmas: removal -/

theorem removeCards_length_le (hand cs : List Card) :
    (removeCards hand cs).length ≤ hand.length :=
  List.length_filter_le _ hand

theorem length_filter_lt_of_mem {α : Type} {p : α → Bool} :
    ∀ {l : List α} {x : α}, x ∈ l → p x = false → (l.filter p).length < l.length := by
  intro l
  induction l with
  | nil => intro x hx; simp at hx
  | cons a t ih =>
      intro x hx hpx
      rcases List.mem_cons.mp hx with rfl | hxt
      · simp only [List.filter_cons, hpx]
        exact Nat.lt_succ_of_le (List.length_filter_le _ _)
      · simp only [List.filter_cons]
        cases hpa : p a
        · exact Nat.lt_succ_of_lt (ih hxt hpx)
        · simpa using Nat.succ_lt_succ (ih hxt hpx)

theorem removeCards_length_lt {hand cs : List Card} {x : Card}
    (hx : x ∈ hand) (hxc : x ∈ cs) :
    (removeCards hand cs).length < hand.length := by
  refine length_filter_lt_of_mem hx ?_
  have : x.id ∈ cs.map (fun c => c.id) := List.mem_map.mpr ⟨x, hxc, rfl⟩
  simp [this]

/-- The decrease fact that makes the source recursion well-founded. -/
theorem removeCards_generateAll_length_lt {hand : List Card} {revolution : Bool}
    {c : Combination} (hc : c ∈ generateAllPotentialCombinations hand revolution) :
    (removeCards hand c.cards).length < hand.length := by
  obtain ⟨hne, hsub⟩ := generateAll_cards_sound hc
  obtain ⟨x, hx⟩ := List.exists_mem_of_ne_nil c.cards hne
  exact removeCards_length_lt (hsub x hx) hx

/-! ## Lemmas: folded minimum -/

theorem foldl_min_le_init {α : Type} (l : List α) (F : α → Nat) :
    ∀ init, l.foldl (fun b a => min b (F a)) init ≤ init := by
  induction l with
  | nil => intro init; simp
  | cons a t ih =>
      intro init
      calc t.foldl (fun b a => min b (F a)) (min init (F a)) ≤ min init (F a) := ih _
        _ ≤ init := Nat.min_le_left _ _

theorem foldl_min_le_mem {α : Type} {l : List α} (F : α → Nat) {a : α} (ha : a ∈ l) :
    ∀ init, l.foldl (fun b x => min b (F x)) init ≤ F a := by
  induction l with
  | nil => simp at ha
  | cons b t ih =>
      intro init
      rcases List.mem_cons.mp ha with rfl | hat
      · calc t.foldl (fun b x => min b (F x)) (min init (F a)) ≤ min init (F a) :=
            foldl_min_le_init t F _
          _ ≤ F a := Nat.min_le_right _ _
      · exact ih hat _

theorem foldl_min_eq_init_or_mem {α : Type} (l : List α) (F : α → Nat) :
    ∀ init, l.foldl (fun b a => min b (F a)) init = init ∨
      ∃ a ∈ l, l.foldl (fun b a => min b (F a)) init = F a := by
  induction l with
  | nil => intro init; left; rfl
  | cons a t ih =>
      intro init
      rcases ih (min init (F a)) with h | ⟨b, hb, h⟩
      · rw [List.foldl_cons, h]
        rcases Nat.le_total init (F a) with hle | hle
        · left; exact Nat.min_eq_left hle
        · right
          exact ⟨a, List.mem_cons_self a t, Nat.min_eq_right hle⟩
      · right
        exact ⟨b, List.mem_cons_of_mem a hb, h⟩

theorem foldl_min_congr {α : Type} {l : List α} {F G : α → Nat}
    (h : ∀ a ∈ l, F a = G a) :
    ∀ init, l.foldl (fun b a => min b (F a)) init = l.foldl (fun b a => min b (G a)) init := by
  induction l with
  | nil => intro init; rfl
  | cons a t ih =>
      intro init
      have ha : F a = G a := h a (List.mem_cons_self a t)
      rw [List.foldl_cons, List.foldl_cons, ha]
      exact ih (fun x hx => h x (List.mem_cons_of_mem a hx)) _

/-! ## Lemmas: Turn-Horizon Estimator -/

theorem estimateMinimumTurnsFuel_nil (fuel : Nat) (revolution : Bool) :
    estimateMinimumTurnsFuel fuel [] revolution = 0 := by
  cases fuel <;> rfl

theorem estimateMinimumTurnsFuel_succ (fuel : Nat) (hand : List Card) (revolution : Bool)
    (h : hand ≠ []) :
    estimateMinimumTurnsFuel (fuel + 1) hand revolution =
      (generateAllPotentialCombinations hand revolution).foldl
        (fun best combo =>
          min best (1 + estimateMinimumTurnsFuel fuel (removeCards hand combo.cards) revolution))
        hand.length := by
  cases hand with
  | nil => exact absurd rfl h
  | cons c t => rfl

theorem estimateMinimumTurnsFuel_le (fuel : Nat) :
    ∀ (hand : List Card) (revolution : Bool),
      estimateMinimumTurnsFuel fuel hand revolution ≤ hand.length := by
  induction fuel with
  | zero => intro hand revolution; cases hand <;> simp [estimateMinimumTurnsFuel]
  | succ fuel ih =>
      intro hand revolution
      cases hand with
      | nil => simp [estimateMinimumTurnsFuel_nil]
      | cons c t =>
          rw [estimateMinimumTurnsFuel_succ fuel (c :: t) revolution (by simp)]
          exact foldl_min_le_init _ _ _

theorem estimateMinimumTurnsFuel_eq_of_le :
    ∀ (n : Nat) (hand : List Card) (revolution : Bool) (fuel : Nat),
      hand.length ≤ n → hand.length ≤ fuel →
      estimateMinimumTurnsFuel fuel hand revolution =
        estimateMinimumTurnsFuel hand.length hand revolution := by
  intro n
  induction n with
  | zero =>
      intro hand revolution fuel hn _
      have : hand = [] := List.length_eq_zero.mp (Nat.le_zero.mp hn)
      subst this
      simp [estimateMinimumTurnsFuel_nil]
  | succ n ih =>
      intro hand revolution fuel hn hf
      cases hand with
      | nil => simp [estimateMinimumTurnsFuel_nil]
      | cons c t =>
          have hlen : (c :: t).length = t.length + 1 := rfl
          obtain ⟨f0, rfl⟩ : ∃ f0, fuel = f0 + 1 := by
            cases fuel with
            | zero => rw [hlen] at hf; omega
            | succ f0 => exact ⟨f0, rfl⟩
          rw [estimateMinimumTurnsFuel_succ f0 (c :: t) revolution (by simp), hlen,
            estimateMinimumTurnsFuel_succ t.length (c :: t) revolution (by simp)]
          refine foldl_min_congr ?_ _
          intro combo hcombo
          have hlt : (removeCards (c :: t) combo.cards).length < (c :: t).length :=
            removeCards_generateAll_length_lt hcombo
          rw [hlen] at hlt
          have h1 : estimateMinimumTurnsFuel f0 (removeCards (c :: t) combo.cards) revolution =
              estimateMinimumTurnsFuel (removeCards (c :: t) combo.cards).length
                (removeCards (c :: t) combo.cards) revolution :=
            ih _ revolution f0 (by omega) (by rw [hlen] at hf; omega)
          have h2 : estimateMinimumTurnsFuel t.length (removeCards (c :: t) combo.cards)
                revolution =
              estimateMinimumTurnsFuel (removeCards (c :: t) combo.cards).length
                (removeCards (c :: t) combo.cards) revolution :=
            ih _ revolution t.length (by omega) (by omega)
          rw [h1, h2]

theorem estimateMinimumTurns_nil (revolution : Bool) :
    estimateMinimumTurns [] revolution = 0 := rfl

theorem estimateMinimumTurns_le (hand : List Card) (revolution : Bool) :
    estimateMinimumTurns hand revolution ≤ hand.length :=
  estimateMinimumTurnsFuel_le _ hand revolution

/-- The defining recurrence of `estimateMinimumTurns` on a nonempty hand. -/
theorem estimateMinimumTurns_eq (hand : List Card) (revolution : Bool) (h : hand ≠ []) :
    estimateMinimumTurns hand revolution =
      (generateAllPotentialCombinations hand revolution).foldl
        (fun best combo =>
          min best (1 + estimateMinimumTurns (removeCards hand combo.cards) revolution))
        hand.length := by
  cases hand with
  | nil => exact absurd rfl h
  | cons c t =>
      show estimateMinimumTurnsFuel (t.length + 1) (c :: t) revolution = _
      rw [estimateMinimumTurnsFuel_succ t.length (c :: t) revolution (by simp)]
      refine foldl_min_congr ?_ _
      intro combo hcombo
      have hlt : (removeCards (c :: t) combo.cards).length < (c :: t).length :=
        removeCards_generateAll_length_lt hcombo
      have : estimateMinimumTurnsFuel t.length (removeCards (c :: t) combo.cards) revolution =
          estimateMinimumTurns (removeCards (c :: t) combo.cards) revolution :=
        estimateMinimumTurnsFuel_eq_of_le t.length _ revolution t.length
          (by simpa using Nat.lt_succ_iff.mp hlt) (by simpa using Nat.lt_succ_iff.mp hlt)
      rw [this]

theorem sortCards_singleton (c : Card) (revolution : Bool) :
    sortCards [c] revolution = [c] := rfl

/-- The single built from the first card of the hand survives deduplication: it is
the head of the generated list. -/
theorem head_single_mem_generateAll (c : Card) (t : List Card) (revolution : Bool) :
    buildCombination .single [c] revolution ∈
      generateAllPotentialCombinations (c :: t) revolution := by
  show _ ∈ dedupByKey (buildCombination .single [c] revolution :: _) []
  rw [dedupByKey]
  simp only [List.contains_nil, Bool.false_eq_true, if_false]
  exact List.mem_cons_self _ _

/-! ## Claim C4 -/

/-- Claim C4: the Turn-Horizon Estimator terminates on every input hand with a finite
answer — every generated combination is formed from at least one card of the current
hand (its card list is nonempty and drawn from the hand), so each recursive call
removes those cards and operates on a strictly smaller hand, making the recursion
well-founded on hand size. -/
theorem claim_C4 (hand : List Card) (revolution : Bool) (c : Combination)
    (hc : c ∈ generateAllPotentialCombinations hand revolution) :
    (c.cards ≠ [] ∧ ∀ x ∈ c.cards, x ∈ hand) ∧
    (removeCards hand c.cards).length < hand.length :=
  ⟨generateAll_cards_sound hc, removeCards_generateAll_length_lt hc⟩

/-- Witness for C4 at the one-card hand `[3♠]` and its generated single. -/
theorem claim_C4_witness :
    ((buildCombination .single [cardS3] false).cards ≠ [] ∧
      ∀ x ∈ (buildCombination .single [cardS3] false).cards, x ∈ singleHand) ∧
    (removeCards singleHand (buildCombination .single [cardS3] false).cards).length <
      singleHand.length :=
  claim_C4 singleHand false (buildCombination .single [cardS3] false) (by
    rw [show generateAllPotentialCombinations singleHand false =
        [buildCombination .single [cardS3] false] from rfl]
    exact List.mem_singleton.mpr rfl)

/-! ## Claim C3 -/

/-- Claim C3: the Turn-Horizon Estimator returns 0 on the empty hand; on a nonempty
hand its value is the minimum over all generable combinations `c` of
`1 + value(hand - c)` — in particular some generable combination attains the value —
and the value never exceeds the number of cards in the hand. -/
theorem claim_C3 (hand : List Card) (revolution : Bool) (h : hand ≠ []) :
    estimateMinimumTurns [] revolution = 0 ∧
    (∀ c ∈ generateAllPotentialCombinations hand revolution,
      estimateMinimumTurns hand revolution ≤
        1 + estimateMinimumTurns (removeCards hand c.cards) revolution) ∧
    (∃ c ∈ generateAllPotentialCombinations hand revolution,
      estimateMinimumTurns hand revolution =
        1 + estimateMinimumTurns (removeCards hand c.cards) revolution) ∧
    estimateMinimumTurns hand revolution ≤ hand.length := by
  obtain ⟨c, t, rfl⟩ : ∃ c t, hand = c :: t := by
    cases hand with
    | nil => exact absurd rfl h
    | cons c t => exact ⟨c, t, rfl⟩
  refine ⟨rfl, ?_, ?_, estimateMinimumTurns_le _ _⟩
  · intro combo hc
    rw [estimateMinimumTurns_eq _ _ h]
    exact foldl_min_le_mem _ hc _
  · rcases foldl_min_eq_init_or_mem (generateAllPotentialCombinations (c :: t) revolution)
        (fun combo => 1 + estimateMinimumTurns (removeCards (c :: t) combo.cards) revolution)
        (c :: t).length with heq | hex
    · have hmem0 := head_single_mem_generateAll c t revolution
      have hcards : (buildCombination .single [c] revolution).cards = [c] := by
        rw [buildCombination_cards, sortCards_singleton]
      have hEst : estimateMinimumTurns (c :: t) revolution = (c :: t).length := by
        rw [estimateMinimumTurns_eq _ _ h]; exact heq
      have hlb : estimateMinimumTurns (c :: t) revolution ≤
          1 + estimateMinimumTurns
            (removeCards (c :: t) (buildCombination .single [c] revolution).cards) revolution := by
        rw [estimateMinimumTurns_eq _ _ h]
        exact foldl_min_le_mem _ hmem0 _
      have hlt : (removeCards (c :: t) (buildCombination .single [c] revolution).cards).length <
          (c :: t).length := by
        refine removeCards_length_lt (List.mem_cons_self c t) ?_
        rw [hcards]
        exact List.mem_singleton.mpr rfl
      have hub : 1 + estimateMinimumTurns
            (removeCards (c :: t) (buildCombination .single [c] revolution).cards) revolution ≤
          (c :: t).length := by
        have := estimateMinimumTurns_le
          (removeCards (c :: t) (buildCombination .single [c] revolution).cards) revolution
        omega
      exact ⟨buildCombination .single [c] revolution, hmem0,
        Nat.le_antisymm hlb (hEst ▸ hub)⟩
    · obtain ⟨combo, hmem, heq⟩ := hex
      refine ⟨combo, hmem, ?_⟩
      rw [estimateMinimumTurns_eq _ _ h]
      exact heq

/-- Witness for C3 at the three-card heart run under normal order. -/
theorem claim_C3_witness :
    estimateMinimumTurns [] false = 0 ∧
    (∀ c ∈ generateAllPotentialCombinations heartsRunHand false,
      estimateMinimumTurns heartsRunHand false ≤
        1 + estimateMinimumTurns (removeCards heartsRunHand c.cards) false) ∧
    (∃ c ∈ generateAllPotentialCombinations heartsRunHand false,
      estimateMinimumTurns heartsRunHand false =
        1 + estimateMinimumTurns (removeCards heartsRunHand c.cards) false) ∧
    estimateMinimumTurns heartsRunHand false ≤ heartsRunHand.length :=
  claim_C3 heartsRunHand false (by decide)

/-! ## Claim C2 -/

theorem generateAll_nil (revolution : Bool) :
    generateAllPotentialCombinations [] revolution = [] := rfl

theorem generateLegal_nil (field : FieldState) : generateLegalCombinations [] field = [] := by
  unfold generateLegalCombinations
  cases field.currentCombination <;> simp [generateAll_nil]

/-- Claim C2: `chooseMove` is total — on every well-formed (hand, tableState) pair it
returns a decision that is either a pass or a play, and whenever the legality-filtered
set is empty (in particular for the empty hand) the decision is a pass. -/
theorem claim_C2 (hand : List Card) (state : TableState) :
    ((chooseMove hand state).action = NpcAction.pass ∨
      (chooseMove hand state).action = NpcAction.play) ∧
    (generateLegalCombinations hand state.field = [] →
      (chooseMove hand state).action = NpcAction.pass) ∧
    (hand = [] → (chooseMove hand state).action = NpcAction.pass) := by
  refine ⟨?_, ?_, ?_⟩
  · cases h : (chooseMove hand state).action
    · right; rfl
    · left; rfl
  · intro hleg
    simp [chooseMove, hleg]
  · rintro rfl
    simp [chooseMove, generateLegal_nil]

/-- Witness for C2: the repo test's blocked position (3♣/4♦ against a single J♠)
has an empty legal set and resolves to a pass. -/
theorem claim_C2_witness :
    generateLegalCombinations lowHand jackState.field = [] ∧
    (chooseMove lowHand jackState).action = NpcAction.pass :=
  ⟨rfl, (claim_C2 lowHand jackState).2.1 rfl⟩

/-! ## Claim C5 -/

theorem getRankWeight_normal {r : Nat} (h3 : 3 ≤ r) (h16 : r ≤ 16) :
    getRankWeight r false = r - 2 := by
  have hb : ∀ x < 17, 3 ≤ x → getRankWeight x false = x - 2 := by decide
  exact hb r (by omega) h3

theorem getRankWeight_revolution {r : Nat} (h3 : 3 ≤ r) (h15 : r ≤ 15) :
    getRankWeight r true = 17 - r := by
  have hb : ∀ x < 16, 3 ≤ x → getRankWeight x true = 17 - x := by decide
  exact hb r (by omega) h3

/-- Counterexample to C5 as stated: under normal order the joker's weight is not
strictly below the weight of the highest ordinary rank — it is strictly above it
(weight 14 versus 13). -/
theorem claim_C5_counterexample :
    ¬ getRankWeight 16 false < getRankWeight 15 false ∧
    getRankWeight 15 false < getRankWeight 16 false := by decide

/-- Claim C5 (amended): under normal order rank 3 has the strictly smallest weight and
the joker has the strictly largest weight, strictly above the highest ordinary rank;
under revolution the relative order of the ordinary ranks 3..15 is exactly reversed
while the joker keeps the strictly largest weight. -/
theorem claim_C5 (r s : Nat) (hr3 : 3 ≤ r) (hr15 : r ≤ 15) (hs3 : 3 ≤ s) (hs15 : s ≤ 15) :
    (r ≠ 3 → getRankWeight 3 false < getRankWeight r false) ∧
    getRankWeight r false < getRankWeight 16 false ∧
    getRankWeight r true < getRankWeight 16 true ∧
    (getRankWeight r false < getRankWeight s false ↔
      getRankWeight s true < getRankWeight r true) := by
  rw [getRankWeight_normal hr3 (by omega), getRankWeight_normal hs3 (by omega),
    getRankWeight_revolution hr3 hr15, getRankWeight_revolution hs3 hs15,
    show getRankWeight 3 false = 1 from rfl, show getRankWeight 16 false = 14 from rfl,
    show getRankWeight 16 true = 15 from rfl]
  refine ⟨fun hne => by omega, by omega, by omega, by omega⟩

/-- Witness for C5 at ranks 4 and 15. -/
theorem claim_C5_witness :
    (4 ≠ 3 → getRankWeight 3 false < getRankWeight 4 false) ∧
    getRankWeight 4 false < getRankWeight 16 false ∧
    getRankWeight 4 true < getRankWeight 16 true ∧
    (getRankWeight 4 false < getRankWeight 15 false ↔
      getRankWeight 15 true < getRankWeight 4 true) :=
  claim_C5 4 15 (by decide) (by decide) (by decide) (by decide)

/-! ## Claim C9 -/

theorem lt_foldl_min {m : Nat} :
    ∀ (ns : List Nat) (n : Nat), m < ns.foldl min n ↔ m < n ∧ ∀ x ∈ ns, m < x := by
  intro ns
  induction ns with
  | nil => intro n; simp
  | cons a t ih =>
      intro n
      rw [List.foldl_cons, ih, Nat.lt_min]
      constructor
      · rintro ⟨⟨hn, ha⟩, ht⟩
        exact ⟨hn, fun x hx => by
          rcases List.mem_cons.mp hx with rfl | hxt
          · exact ha
          · exact ht x hxt⟩
      · rintro ⟨hn, hall⟩
        exact ⟨⟨hn, hall a (List.mem_cons_self a t)⟩,
          fun x hx => hall x (List.mem_cons_of_mem a hx)⟩

theorem lt_smallest_iff (m : Nat) (o : OpponentSummary) (os : List OpponentSummary) :
    m < (os.map (fun p => p.remainingCards)).foldl min o.remainingCards ↔
      ∀ p ∈ o :: os, m < p.remainingCards := by
  rw [lt_foldl_min]
  constructor
  · rintro ⟨ho, hall⟩ p hp
    rcases List.mem_cons.mp hp with rfl | hpt
    · exact ho
    · exact hall p.remainingCards (List.mem_map.mpr ⟨p, hpt, rfl⟩)
  · intro hall
    refine ⟨hall o (List.mem_cons_self o os), ?_⟩
    intro x hx
    obtain ⟨p, hp, rfl⟩ := List.mem_map.mp hx
    exact hall p (List.mem_cons_of_mem o hp)

/-- The endgame-bonus value on a nonempty residual hand with at least one opponent. -/
theorem computeEndgameBonus_cons (remaining : List Card) (o : OpponentSummary)
    (os : List OpponentSummary) (hne : remaining ≠ []) :
    computeEndgameBonus remaining (o :: os) =
      (if remaining.length ≤ 2 ∧ ∀ p ∈ o :: os, remaining.length < p.remainingCards then 25
       else if remaining.length ≤ 4 then 12
       else 0) := by
  have hlen : ¬ remaining.length = 0 := by
    simpa [List.length_eq_zero] using hne
  unfold computeEndgameBonus
  rw [if_neg hlen, if_neg (by simp)]
  simp only [List.map_cons]
  by_cases hcond :
      remaining.length ≤ 2 ∧ ∀ p ∈ o :: os, remaining.length < p.remainingCards
  · rw [if_pos hcond, if_pos ⟨hcond.1, (lt_smallest_iff _ o os).mpr hcond.2⟩]
  · rw [if_neg hcond, if_neg (fun hc =>
      hcond ⟨hc.1, (lt_smallest_iff _ o os).mp hc.2⟩)]

/-- Counterexample to C9 as stated: with no opponents recorded, a nonempty residual
hand of 3 cards receives bonus 0 — exactly the value of residual hands larger than 4 —
not the claimed smaller graduated bonus. -/
theorem claim_C9_counterexample :
    computeEndgameBonus heartsRunHand [] = 0 ∧ computeEndgameBonus bombHand [] = 0 := by
  constructor <;> rfl

/-- Claim C9 (amended): the endgame bonus is the flat 120 exactly when the play empties
the hand; when at least one opponent is recorded, a nonempty residual of at most 2
cards earns the higher graduated bonus (25) exactly when every opponent's
remaining-card count strictly exceeds the residual count, otherwise residuals of at
most 4 cards earn the smaller graduated bonus (12) and larger residuals earn 0; when
the opponent list is empty, a nonempty residual of at most 2 cards earns 20 and every
other nonempty residual earns 0. -/
theorem claim_C9 (remaining : List Card) (opponents : List OpponentSummary) :
    (computeEndgameBonus remaining opponents = 120 ↔ remaining = []) ∧
    (remaining ≠ [] → opponents ≠ [] →
      ((computeEndgameBonus remaining opponents = 25 ↔
          remaining.length ≤ 2 ∧ ∀ o ∈ opponents, remaining.length < o.remainingCards) ∧
        (¬(remaining.length ≤ 2 ∧ ∀ o ∈ opponents, remaining.length < o.remainingCards) →
          computeEndgameBonus remaining opponents =
            (if remaining.length ≤ 4 then 12 else 0)))) ∧
    (remaining ≠ [] → opponents = [] →
      computeEndgameBonus remaining opponents = (if remaining.length ≤ 2 then 20 else 0)) := by
  refine ⟨?_, ?_, ?_⟩
  · constructor
    · intro h
      by_contra hne
      have hlen : ¬ remaining.length = 0 := by
        simpa [List.length_eq_zero] using hne
      cases opponents with
      | nil =>
          unfold computeEndgameBonus at h
          rw [if_neg hlen] at h
          have h20 : (if remaining.length ≤ 2 then (20 : ℚ) else 0) = 120 := by
            simpa using h
          split at h20 <;> norm_num at h20
      | cons o os =>
          rw [computeEndgameBonus_cons remaining o os hne] at h
          split at h
          · norm_num at h
          · split at h <;> norm_num at h
    · rintro rfl
      rfl
  · intro hne hop
    cases opponents with
    | nil => exact absurd rfl hop
    | cons o os =>
        rw [computeEndgameBonus_cons remaining o os hne]
        constructor
        · by_cases hcond :
              remaining.length ≤ 2 ∧ ∀ p ∈ o :: os, remaining.length < p.remainingCards
          · rw [if_pos hcond]
            exact iff_of_true rfl hcond
          · rw [if_neg hcond]
            constructor
            · intro h
              split at h <;> norm_num at h
            · intro h
              exact absurd h hcond
        · intro hcond
          rw [if_neg hcond]
  · intro hne hop
    subst hop
    have hlen : ¬ remaining.length = 0 := by
      simpa [List.length_eq_zero] using hne
    unfold computeEndgameBonus
    rw [if_neg hlen]
    simp

/-- Witness for C9 at the three-card heart run against two live opponents. -/
theorem claim_C9_witness :
    (computeEndgameBonus heartsRunHand twoOpponents = 120 ↔ heartsRunHand = []) ∧
    (heartsRunHand ≠ [] → twoOpponents ≠ [] →
      ((computeEndgameBonus heartsRunHand twoOpponents = 25 ↔
          heartsRunHand.length ≤ 2 ∧
            ∀ o ∈ twoOpponents, heartsRunHand.length < o.remainingCards) ∧
        (¬(heartsRunHand.length ≤ 2 ∧
            ∀ o ∈ twoOpponents, heartsRunHand.length < o.remainingCards) →
          computeEndgameBonus heartsRunHand twoOpponents =
            (if heartsRunHand.length ≤ 4 then 12 else 0)))) ∧
    (heartsRunHand ≠ [] → twoOpponents = [] →
      computeEndgameBonus heartsRunHand twoOpponents =
        (if heartsRunHand.length ≤ 2 then 20 else 0)) :=
  claim_C9 heartsRunHand twoOpponents

/-! ## Claim C6 -/

theorem generateAll_bomb_length {hand : List Card} {revolution : Bool} {c : Combination}
    (hc : c ∈ generateAllPotentialCombinations hand revolution)
    (ht : c.type = CombinationType.bomb) : c.cards.length = 4 := by
  have hgrouplen :
      ∀ {size : Nat} {t : CombinationType},
        c ∈ generateGroupCombinations hand size t revolution → c.cards.length = size := by
    intro size t hmem
    obtain ⟨r, B, _, hle, rfl⟩ := mem_generateGroup_elim hmem
    rw [buildCombination_cards, length_sortCards, List.length_take]
    omega
  rcases mem_generateAll_elim hc with h | h | h | h | h
  · obtain ⟨x, _, rfl⟩ := List.mem_map.mp h
    simp [buildCombination_type] at ht
  · rw [hgrouplen h]
    obtain ⟨r, B, _, _, rfl⟩ := mem_generateGroup_elim h
    simp [buildCombination_type] at ht
  · obtain ⟨r, B, _, _, rfl⟩ := mem_generateGroup_elim h
    simp [buildCombination_type] at ht
  · obtain ⟨pre, rfl, _, _⟩ := mem_generateSequence_elim h
    simp [buildCombination_type] at ht
  · exact hgrouplen h

theorem generateLegal_some (hand : List Card) (field : FieldState) (cur : Combination)
    (hcur : field.currentCombination = some cur) :
    generateLegalCombinations hand field =
      (generateAllPotentialCombinations hand field.revolution).filter (fun combo =>
        decide (combo.type = CombinationType.bomb ∧ cur.type ≠ CombinationType.bomb)
          || combinationBeats combo cur field.revolution) := by
  unfold generateLegalCombinations
  rw [hcur]

theorem combinationBeats_bomb_iff (cand cur : Combination) (revolution : Bool)
    (hbomb : cur.type = CombinationType.bomb) :
    combinationBeats cand cur revolution = true ↔
      (cand.type = CombinationType.bomb ∧ cand.cards.length = cur.cards.length ∧
        ∃ a b, cand.cards.getLast? = some a ∧ cur.cards.getLast? = some b ∧
          getRankWeight b.rank revolution < getRankWeight a.rank revolution) := by
  unfold combinationBeats
  rw [if_neg (by simp [hbomb])]
  by_cases htype : cand.type = cur.type
  · rw [if_neg (by simpa using htype)]
    have hcand : cand.type = CombinationType.bomb := htype.trans hbomb
    by_cases hlen : cand.cards.length = cur.cards.length
    · rw [if_neg (by simpa using hlen)]
      cases hga : cand.cards.getLast? with
      | none =>
          have hcnil : cand.cards = [] := List.getLast?_eq_none_iff.mp hga
          have hcurnil : cur.cards = [] := by
            have := hlen
            rw [hcnil] at this
            exact List.length_eq_zero.mp this.symm
          rw [hcurnil]
          simp [hga]
      | some a =>
          cases hgb : cur.cards.getLast? with
          | none =>
              have hcurnil : cur.cards = [] := List.getLast?_eq_none_iff.mp hgb
              have : cand.cards = [] := by
                rw [hcurnil] at hlen
                exact List.length_eq_zero.mp hlen
              rw [this] at hga
              simp at hga
          | some b =>
              simp only [hga, hgb, decide_eq_true_eq]
              constructor
              · intro hlt
                exact ⟨hcand, hlen, a, b, rfl, rfl, hlt⟩
              · rintro ⟨-, -, a', b', ha', hb', hlt⟩
                injection ha' with ha'
                injection hb' with hb'
                rw [ha', hb']
                exact hlt
    · rw [if_pos (by simpa using hlen)]
      simp only [Bool.false_eq_true, false_iff]
      rintro ⟨-, hl, -⟩
      exact hlen hl
  · rw [if_pos (by simpa using htype)]
    simp only [Bool.false_eq_true, false_iff]
    rintro ⟨hc, -, -⟩
    exact htype (hc.trans hbomb.symm)

/-- Claim C6: over a bomb on the field, the Legality Filter returns exactly the
generated bombs of equal cardinality (generated bombs always have 4 cards) whose top
card's rank weight strictly exceeds the current bomb's top card's rank weight; no
non-bomb combination is ever legal over a bomb. -/
theorem claim_C6 (hand : List Card) (field : FieldState) (cur : Combination)
    (hcur : field.currentCombination = some cur) (hbomb : cur.type = CombinationType.bomb) :
    (∀ c ∈ generateLegalCombinations hand field,
        c.type = CombinationType.bomb ∧ c.cards.length = 4) ∧
    (∀ c, c ∈ generateLegalCombinations hand field ↔
      (c ∈ generateAllPotentialCombinations hand field.revolution ∧
        c.type = CombinationType.bomb ∧ c.cards.length = cur.cards.length ∧
        ∃ a b, c.cards.getLast? = some a ∧ cur.cards.getLast? = some b ∧
          getRankWeight b.rank field.revolution < getRankWeight a.rank field.revolution)) := by
  have hpred : ∀ c : Combination,
      (decide (c.type = CombinationType.bomb ∧ cur.type ≠ CombinationType.bomb)
        || combinationBeats c cur field.revolution) = combinationBeats c cur field.revolution := by
    intro c
    have : ¬ (c.type = CombinationType.bomb ∧ cur.type ≠ CombinationType.bomb) := by
      rintro ⟨-, hne⟩
      exact hne hbomb
    simp [this]
  have hmem : ∀ c, c ∈ generateLegalCombinations hand field ↔
      (c ∈ generateAllPotentialCombinations hand field.revolution ∧
        combinationBeats c cur field.revolution = true) := by
    intro c
    rw [generateLegal_some hand field cur hcur, List.mem_filter, hpred c]
  constructor
  · intro c hc
    obtain ⟨hall, hbeats⟩ := (hmem c).mp hc
    obtain ⟨htype, -, -⟩ := (combinationBeats_bomb_iff c cur field.revolution hbomb).mp hbeats
    exact ⟨htype, generateAll_bomb_length hall htype⟩
  · intro c
    rw [hmem c, combinationBeats_bomb_iff c cur field.revolution hbomb]

/-- Witness for C6: a hand holding four 5s (plus a spare 9) facing a bomb of 3s. -/
theorem claim_C6_witness :
    (∀ c ∈ generateLegalCombinations bombHand bombField,
        c.type = CombinationType.bomb ∧ c.cards.length = 4) ∧
    (∀ c, c ∈ generateLegalCombinations bombHand bombField ↔
      (c ∈ generateAllPotentialCombinations bombHand bombField.revolution ∧
        c.type = CombinationType.bomb ∧ c.cards.length = fieldBomb.cards.length ∧
        ∃ a b, c.cards.getLast? = some a ∧ fieldBomb.cards.getLast? = some b ∧
          getRankWeight b.rank bombField.revolution <
            getRankWeight a.rank bombField.revolution)) :=
  claim_C6 bombHand bombField fieldBomb rfl rfl

/-! ## Claims C7 and C8 -/

theorem insertionSort_head_max (l : List EvaluatedMove) (d : EvaluatedMove) (h : l ≠ []) :
    (List.insertionSort scoreDescLE l).headD d ∈ l ∧
    ∀ e ∈ l, e.score ≤ ((List.insertionSort scoreDescLE l).headD d).score := by
  have hperm := List.perm_insertionSort scoreDescLE l
  have hsorted : (List.insertionSort scoreDescLE l).Pairwise scoreDescLE := by
    haveI : IsTotal EvaluatedMove scoreDescLE := ⟨fun a b => le_total b.score a.score⟩
    haveI : IsTrans EvaluatedMove scoreDescLE :=
      ⟨fun _ _ _ hab hbc => le_trans hbc hab⟩
    exact List.sorted_insertionSort _ l
  cases hs : List.insertionSort scoreDescLE l with
  | nil =>
      rw [hs] at hperm
      exact absurd hperm.symm.eq_nil h
  | cons b t =>
      rw [hs] at hperm hsorted
      rw [List.headD_cons]
      constructor
      · exact hperm.mem_iff.mp (List.mem_cons_self b t)
      · intro e he
        rcases List.mem_cons.mp (hperm.mem_iff.mpr he) with rfl | ht
        · exact le_refl _
        · exact (List.pairwise_cons.mp hsorted).1 e ht

/-- The decision taken by `chooseMove` when the legal set is nonempty. -/
theorem chooseMove_branch (hand : List Card) (state : TableState)
    (h : generateLegalCombinations hand state.field ≠ []) :
    chooseMove hand state =
      (if ((List.insertionSort scoreDescLE
            ((generateLegalCombinations hand state.field).map
              (fun combo => evaluateCombination hand combo state))).headD
              (evaluatePass state)).score ≤ (evaluatePass state).score + 2 then
        { action := .pass
          score := (evaluatePass state).score
          breakdown := [("patience", (evaluatePass state).score)]
          explanation := "強い手がないためパス" }
      else
        { action := .play
          combination := some ((List.insertionSort scoreDescLE
            ((generateLegalCombinations hand state.field).map
              (fun combo => evaluateCombination hand combo state))).headD
              (evaluatePass state)).combination
          score := ((List.insertionSort scoreDescLE
            ((generateLegalCombinations hand state.field).map
              (fun combo => evaluateCombination hand combo state))).headD
              (evaluatePass state)).score
          breakdown := ((List.insertionSort scoreDescLE
            ((generateLegalCombinations hand state.field).map
              (fun combo => evaluateCombination hand combo state))).headD
              (evaluatePass state)).breakdown
          explanation := ((List.insertionSort scoreDescLE
            ((generateLegalCombinations hand state.field).map
              (fun combo => evaluateCombination hand combo state))).headD
              (evaluatePass state)).explanation }) := by
  have hfalse : (generateLegalCombinations hand state.field).isEmpty = false :=
    List.isEmpty_eq_false.mpr h
  unfold chooseMove
  simp only [hfalse, Bool.false_eq_true, if_false]

/-- Claim C7: whenever the legal set is nonempty, `chooseMove` plays the top-scoring
evaluated combination exactly when its total score exceeds the pass score by strictly
more than 2 points, and passes otherwise. -/
theorem claim_C7 (hand : List Card) (state : TableState)
    (h : generateLegalCombinations hand state.field ≠ []) :
    ∃ e ∈ (generateLegalCombinations hand state.field).map
        (fun combo => evaluateCombination hand combo state),
      (∀ e2 ∈ (generateLegalCombinations hand state.field).map
          (fun combo => evaluateCombination hand combo state), e2.score ≤ e.score) ∧
      ((evaluatePass state).score + 2 < e.score →
        chooseMove hand state =
          { action := .play, combination := some e.combination, score := e.score,
            breakdown := e.breakdown, explanation := e.explanation }) ∧
      (e.score ≤ (evaluatePass state).score + 2 →
        (chooseMove hand state).action = NpcAction.pass) := by
  have hne : (generateLegalCombinations hand state.field).map
      (fun combo => evaluateCombination hand combo state) ≠ [] := by
    simpa [List.map_eq_nil_iff] using h
  obtain ⟨hmem, hmax⟩ := insertionSort_head_max
    ((generateLegalCombinations hand state.field).map
      (fun combo => evaluateCombination hand combo state)) (evaluatePass state) hne
  refine ⟨_, hmem, hmax, ?_, ?_⟩
  · intro hgt
    rw [chooseMove_branch hand state h, if_neg (not_le.mpr hgt)]
  · intro hle
    rw [chooseMove_branch hand state h, if_pos hle]

/-- Witness for C7: a lone 3♠ on an open field with no opponents. -/
theorem claim_C7_witness :
    ∃ e ∈ (generateLegalCombinations singleHand emptyOppState.field).map
        (fun combo => evaluateCombination singleHand combo emptyOppState),
      (∀ e2 ∈ (generateLegalCombinations singleHand emptyOppState.field).map
          (fun combo => evaluateCombination singleHand combo emptyOppState),
        e2.score ≤ e.score) ∧
      ((evaluatePass emptyOppState).score + 2 < e.score →
        chooseMove singleHand emptyOppState =
          { action := .play, combination := some e.combination, score := e.score,
            breakdown := e.breakdown, explanation := e.explanation }) ∧
      (e.score ≤ (evaluatePass emptyOppState).score + 2 →
        (chooseMove singleHand emptyOppState).action = NpcAction.pass) :=
  claim_C7 singleHand emptyOppState (by
    rw [show generateLegalCombinations singleHand emptyOppState.field =
        [buildCombination .single [cardS3] false] from rfl]
    simp)

/-- Claim C8: whenever `chooseMove` answers with a play, the returned combination is
an element of the legality-filtered set for that hand and field. -/
theorem claim_C8 (hand : List Card) (state : TableState) (c : Combination)
    (hplay : (chooseMove hand state).action = NpcAction.play)
    (hcomb : (chooseMove hand state).combination = some c) :
    c ∈ generateLegalCombinations hand state.field := by
  by_cases h : generateLegalCombinations hand state.field = []
  · exfalso
    have : (chooseMove hand state).action = NpcAction.pass := by
      simp [chooseMove, h]
    rw [hplay] at this
    exact NpcAction.noConfusion this
  · have hne : (generateLegalCombinations hand state.field).map
        (fun combo => evaluateCombination hand combo state) ≠ [] := by
      simpa [List.map_eq_nil_iff] using h
    obtain ⟨hmem, -⟩ := insertionSort_head_max
      ((generateLegalCombinations hand state.field).map
        (fun combo => evaluateCombination hand combo state)) (evaluatePass state) hne
    rw [chooseMove_branch hand state h] at hplay hcomb
    by_cases hle : ((List.insertionSort scoreDescLE
          ((generateLegalCombinations hand state.field).map
            (fun combo => evaluateCombination hand combo state))).headD
          (evaluatePass state)).score ≤ (evaluatePass state).score + 2
    · rw [if_pos hle] at hplay
      exact absurd hplay (by simp)
    · rw [if_neg hle] at hcomb
      obtain ⟨c0, hc0, heq⟩ := List.mem_map.mp hmem
      have hcc : c0 = c := by
        have hbc : ((List.insertionSort scoreDescLE
            ((generateLegalCombinations hand state.field).map
              (fun combo => evaluateCombination hand combo state))).headD
            (evaluatePass state)).combination = c0 := by
          rw [← heq]
          rfl
        simp only [hbc] at hcomb
        injection hcomb with hcomb
      exact hcc ▸ hc0

/-- Witness for C8: the lone 3♠ is played and the played single is in the legal set. -/
theorem claim_C8_witness :
    (chooseMove singleHand emptyOppState).action = NpcAction.play ∧
    (chooseMove singleHand emptyOppState).combination =
      some (buildCombination .single [cardS3] false) ∧
    buildCombination .single [cardS3] false ∈
      generateLegalCombinations singleHand emptyOppState.field :=
  ⟨by with_unfolding_all decide, by with_unfolding_all decide,
    claim_C8 singleHand emptyOppState _ (by with_unfolding_all decide)
      (by with_unfolding_all decide)⟩

/-! ## Claim C10 -/

theorem ensureLoop_rosterView (f : Nat → ℚ) :
    ∀ (k : Nat) (r1 r2 : List Participant) (used : List String) (c1 c2 pos : Nat),
      r1.map rosterView = r2.map rosterView →
      ((ensureLoop f k r1 used c1 pos).1).map rosterView =
        ((ensureLoop f k r2 used c2 pos).1).map rosterView := by
  intro k
  induction k with
  | zero => intro r1 r2 used c1 c2 pos h; exact h
  | succ k ih =>
      intro r1 r2 used c1 c2 pos h
      simp only [ensureLoop]
      refine ih _ _ _ _ _ _ ?_
      rw [List.map_append, List.map_append, h]
      rfl

/-- Claim C10 (amended): the roster helper `ensureNpcParticipants` is pure with respect to the supplied
random source in everything the random source determines — the returned names,
human flags and controller kinds, in order, are independent of the module id-counter
state; the ids themselves come from that counter (see the counterexample). -/
theorem claim_C10 (participants : List Participant) (desiredCount : Nat) (f : Nat → ℚ)
    (c1 c2 pos : Nat) :
    ((ensureNpcParticipants participants desiredCount f c1 pos).1).map rosterView =
      ((ensureNpcParticipants participants desiredCount f c2 pos).1).map rosterView :=
  ensureLoop_rosterView f _ participants participants _ c1 c2 pos rfl

/-- Counterexample to C10 as stated: two successive calls with identical participant
lists, identical desired count and identical random sequences nevertheless disagree,
because the module-global `npcSequence` counter advances between the calls and is
baked into the generated ids ("npc-1" versus "npc-2"); names and flags do agree. -/
theorem claim_C10_counterexample :
    ((ensureNpcParticipants [] 1 (fun _ => 0) 0 0).1 ≠
      (ensureNpcParticipants [] 1 (fun _ => 0)
        (ensureNpcParticipants [] 1 (fun _ => 0) 0 0).2.1 0).1) ∧
    ((ensureNpcParticipants [] 1 (fun _ => 0) 0 0).1.map rosterView =
      (ensureNpcParticipants [] 1 (fun _ => 0)
        (ensureNpcParticipants [] 1 (fun _ => 0) 0 0).2.1 0).1.map rosterView) := by
  with_unfolding_all decide

/-! ## Claim C1 -/

theorem chainFrom_of_consecutiveWeights :
    ∀ (c : Card) (rest : List Card),
      (∀ x ∈ c :: rest, 3 ≤ x.rank ∧ x.rank ≤ 16) →
      consecutiveWeights false (c :: rest) = true →
      chainFrom c.rank rest := by
  intro c rest
  induction rest generalizing c with
  | nil => intro _ _; trivial
  | cons b rest' ih =>
      intro hrank hcons
      have hw : getRankWeight b.rank false = getRankWeight c.rank false + 1 ∧
          consecutiveWeights false (b :: rest') = true := by
        simpa [consecutiveWeights] using hcons
      have hcb := hrank c (List.mem_cons_self c _)
      have hbb := hrank b (List.mem_cons_of_mem c (List.mem_cons_self b _))
      have hr : b.rank = c.rank + 1 := by
        obtain ⟨hw1, -⟩ := hw
        rw [getRankWeight_normal hcb.1 hcb.2, getRankWeight_normal hbb.1 hbb.2] at hw1
        omega
      exact ⟨hr, ih b (fun x hx => hrank x (List.mem_cons_of_mem c hx)) hw.2⟩

theorem extendRun_complete (revolution : Bool) :
    ∀ (ext tail seq : List Card) (lastRank : Nat),
      ext ≠ [] → chainFrom lastRank ext → 3 ≤ (seq ++ ext).length →
      buildCombination .sequence (seq ++ ext) revolution ∈
        extendRun revolution (ext ++ tail) lastRank seq := by
  intro ext
  induction ext with
  | nil => intro tail seq lastRank hne; exact absurd rfl hne
  | cons c ext' ih =>
      intro tail seq lastRank _ hchain hlen
      obtain ⟨hr, hchain'⟩ := hchain
      have hne1 : ¬ c.rank = lastRank := by omega
      rw [List.cons_append, extendRun, if_neg hne1, if_pos hr]
      cases hext' : ext' with
      | nil =>
          subst hext'
          have h3 : 3 ≤ (seq ++ [c]).length := by simpa using hlen
          rw [if_pos h3]
          exact List.mem_append_left _ (List.mem_singleton.mpr rfl)
      | cons d ext'' =>
          rw [← hext']
          refine List.mem_append_right _ ?_
          have hassoc : seq ++ c :: ext' = (seq ++ [c]) ++ ext' := by simp
          rw [hassoc]
          refine ih tail (seq ++ [c]) c.rank (by simp [hext']) hchain' ?_
          rw [← hassoc]
          exact hlen

theorem scanStarts_complete (revolution : Bool) :
    ∀ (L : List Card) (i : Nat) (run tail : List Card),
      L.drop i = run ++ tail → 3 ≤ run.length →
      (∀ (c : Card) (rest : List Card), run = c :: rest → chainFrom c.rank rest) →
      buildCombination .sequence run revolution ∈ scanStarts revolution L := by
  intro L
  induction L with
  | nil =>
      intro i run tail hdrop hlen _
      rw [List.drop_nil] at hdrop
      have : run = [] := by
        cases run with
        | nil => rfl
        | cons a t => simp at hdrop
      rw [this] at hlen
      simp at hlen
  | cons x L' ih =>
      intro i run tail hdrop hlen hchain
      cases i with
      | zero =>
          rw [List.drop_zero] at hdrop
          cases hrun : run with
          | nil => rw [hrun] at hlen; simp at hlen
          | cons c rest =>
              rw [hrun, List.cons_append] at hdrop
              injection hdrop with hx hL
              subst hx
              subst hL
              rw [scanStarts]
              refine List.mem_append_left _ ?_
              have hrest : rest ≠ [] := by
                rw [hrun] at hlen
                intro hr
                rw [hr] at hlen
                simp at hlen
              have hchain' : chainFrom x.rank rest := hchain x rest hrun
              have hlen' : 3 ≤ ([x] ++ rest).length := by
                rw [hrun] at hlen
                simpa using hlen
              have hmem := extendRun_complete revolution rest tail [x] x.rank
                hrest hchain' hlen'
              simpa using hmem
      | succ j =>
          rw [scanStarts]
          refine List.mem_append_right _ ?_
          exact ih j run tail (by simpa using hdrop) hlen hchain

theorem extendRun_eq_nil (revolution : Bool) :
    ∀ (rest : List Card) (lastRank : Nat) (seq : List Card),
      (∀ x ∈ rest, x.rank ≤ lastRank) → extendRun revolution rest lastRank seq = [] := by
  intro rest
  induction rest with
  | nil => intro lastRank seq _; rfl
  | cons c t ih =>
      intro lastRank seq hle
      have hc := hle c (List.mem_cons_self c t)
      by_cases h1 : c.rank = lastRank
      · rw [extendRun, if_pos h1]
        exact ih lastRank seq (fun x hx => hle x (List.mem_cons_of_mem c hx))
      · have h2 : ¬ c.rank = lastRank + 1 := by omega
        rw [extendRun, if_neg h1, if_neg h2]

theorem scanStarts_eq_nil (revolution : Bool) :
    ∀ (L : List Card), L.Pairwise (fun a b => b.rank ≤ a.rank) →
      scanStarts revolution L = [] := by
  intro L
  induction L with
  | nil => intro _; rfl
  | cons c t ih =>
      intro hp
      obtain ⟨hhead, htail⟩ := List.pairwise_cons.mp hp
      rw [scanStarts, extendRun_eq_nil revolution t c.rank [c] hhead, ih htail]
      rfl

theorem flatMap_eq_nil_of_forall {α β : Type} (l : List α) (f : α → List β)
    (h : ∀ b ∈ l, f b = []) : l.flatMap f = [] := by
  induction l with
  | nil => rfl
  | cons a t ih =>
      rw [List.flatMap_cons, h a (List.mem_cons_self a t), List.nil_append]
      exact ih (fun b hb => h b (List.mem_cons_of_mem a hb))

/-- Counterexample to C1 as stated: under the revolution flag the three-card heart run
5-6-7 sorts (by revolution weight) to 7-6-5 with consecutive rank weights, yet the
sequence generator emits nothing — its scan tests raw ascending ranks. -/
theorem claim_C1_counterexample :
    (sortCards (heartsRunHand.filter
        (fun c => seqEligible c && decide (c.suit = Suit.heart))) true).drop 0 =
      [cardH7, cardH6, cardH5] ++ [] ∧
    3 ≤ ([cardH7, cardH6, cardH5] : List Card).length ∧
    consecutiveWeights true [cardH7, cardH6, cardH5] = true ∧
    generateSequenceCombinations heartsRunHand true = [] := by
  refine ⟨by decide, by decide, by decide, ?_⟩
  with_unfolding_all decide

/-- Claim C1 (amended): over a hand of in-domain ranks, under normal order the
sequence generator emits, for every suit, every contiguous sub-run of length ≥ 3 of
consecutive rank weights of that suit's weight-sorted eligible cards, starting at
every position, as a separate sequence combination; under revolution the scan still
requires raw ascending ranks while the sort is rank-descending, so it emits nothing. -/
theorem claim_C1 (hand : List Card)
    (hWF : ∀ c ∈ hand, 3 ≤ c.rank ∧ c.rank ≤ 16) :
    (∀ (s : Suit) (run tail : List Card) (i : Nat),
      (sortCards (hand.filter (fun c => seqEligible c && decide (c.suit = s))) false).drop i =
        run ++ tail →
      3 ≤ run.length →
      consecutiveWeights false run = true →
      ∃ combo ∈ generateSequenceCombinations hand false,
        combo.type = CombinationType.sequence ∧ combo.cards = run) ∧
    generateSequenceCombinations hand true = [] := by
  constructor
  · intro s run tail i hdrop hlen hcons
    obtain ⟨c0, rest0, hrun⟩ : ∃ c0 rest0, run = c0 :: rest0 := by
      cases run with
      | nil => simp at hlen
      | cons a t => exact ⟨a, t, rfl⟩
    -- the suit bucket is nonempty because the run is drawn from its sorted form
    have hsubL : run.Sublist
        (sortCards (hand.filter (fun c => seqEligible c && decide (c.suit = s))) false) := by
      have h1 : run.Sublist (run ++ tail) := List.sublist_append_left run tail
      have h2 : (run ++ tail).Sublist
          (sortCards (hand.filter (fun c => seqEligible c && decide (c.suit = s))) false) := by
        rw [← hdrop]
        exact List.drop_sublist i _
      exact h1.trans h2
    have hrunmem : ∀ x ∈ run,
        x ∈ hand.filter (fun c => seqEligible c && decide (c.suit = s)) := by
      intro x hx
      exact mem_sortCards.mp (hsubL.subset hx)
    have hBne : hand.filter (fun c => seqEligible c && decide (c.suit = s)) ≠ [] := by
      intro hB
      have := hrunmem c0 (hrun ▸ List.mem_cons_self c0 rest0)
      rw [hB] at this
      simp at this
    have hbucket : (s, hand.filter (fun c => seqEligible c && decide (c.suit = s))) ∈
        perSuitBuckets hand :=
      (mem_bucketsBy_iff (fun c => c.suit) seqEligible hand s _).mpr ⟨rfl, hBne⟩
    have hrunWF : ∀ x ∈ run, 3 ≤ x.rank ∧ x.rank ≤ 16 := by
      intro x hx
      exact hWF x (List.mem_of_mem_filter (hrunmem x hx))
    have hchain : ∀ (c : Card) (rest : List Card), run = c :: rest → chainFrom c.rank rest := by
      intro c rest hr
      refine chainFrom_of_consecutiveWeights c rest ?_ ?_
      · rw [← hr]; exact hrunWF
      · rw [← hr]; exact hcons
    have hmem := scanStarts_complete false _ i run tail hdrop hlen hchain
    refine ⟨buildCombination .sequence run false, ?_, rfl, ?_⟩
    · rw [generateSequenceCombinations]
      rw [List.mem_flatMap]
      exact ⟨(s, hand.filter (fun c => seqEligible c && decide (c.suit = s))), hbucket, hmem⟩
    · rw [buildCombination_cards]
      refine sortCards_of_sorted ?_
      have hsorted := sortCards_sorted
        (hand.filter (fun c => seqEligible c && decide (c.suit = s))) false
      exact hsorted.sublist hsubL
  · rw [generateSequenceCombinations]
    refine flatMap_eq_nil_of_forall _ _ ?_
    rintro ⟨s, B⟩ hb
    obtain ⟨hBeq, -⟩ := (mem_bucketsBy_iff (fun c => c.suit) seqEligible hand s B).mp hb
    have hBrank : ∀ x ∈ B, 3 ≤ x.rank ∧ x.rank ≤ 14 := by
      intro x hx
      rw [hBeq, List.mem_filter] at hx
      obtain ⟨hxh, hxp⟩ := hx
      have hwf := hWF x hxh
      have h15 : ¬ 15 ≤ x.rank := by
        intro h15
        simp [seqEligible, h15] at hxp
      exact ⟨hwf.1, by omega⟩
    refine scanStarts_eq_nil true _ ?_
    have hsorted := sortCards_sorted B true
    refine hsorted.imp_of_mem ?_
    intro a b ha hb2 hab
    have hA := hBrank a (mem_sortCards.mp ha)
    have hB2 := hBrank b (mem_sortCards.mp hb2)
    have hwa : getRankWeight a.rank true = 17 - a.rank :=
      getRankWeight_revolution hA.1 (by omega)
    have hwb : getRankWeight b.rank true = 17 - b.rank :=
      getRankWeight_revolution hB2.1 (by omega)
    unfold cardWeightLE at hab
    rw [hwa, hwb] at hab
    omega

/-- Witness for C1: the heart run 5-6-7 is emitted as a sequence under normal order,
and the same hand yields no sequences under revolution. -/
theorem claim_C1_witness :
    (∃ combo ∈ generateSequenceCombinations heartsRunHand false,
      combo.type = CombinationType.sequence ∧ combo.cards = [cardH5, cardH6, cardH7]) ∧
    generateSequenceCombinations heartsRunHand true = [] := by
  have h := claim_C1 heartsRunHand (by decide)
  exact ⟨h.1 Suit.heart [cardH5, cardH6, cardH7] [] 0 (by decide) (by decide) (by decide), h.2⟩
